import Mathlib

set_option maxRecDepth 8192

/-!
Verification of the bounded-concurrency IPTV credential verification engine
(`iptv_checker_optimized.py`) against its natural-language specification.

The Python source is shallowly embedded: network I/O is abstracted as explicit
outcome values (`HttpOutcome` for the JSON endpoints, `TextOutcome` for the
combo download), JSON bodies are an inductive `Json` type (no floats: none of
the checked fields are floating point), and the engine's mutable counters are
threaded explicitly through a `RunState`.  Python exceptions that the source
catches are modelled with `Except`/`Option`; the one exception the source does
not catch (a failed hit-file append inside `save_hit`) is modelled as an
aborting `Except.error` result of the run loop.
-/

/-- JSON values as delivered by the checker's HTTP layer.  `obj` keeps the
field order of the decoded Python dict; lookup takes the first matching key. -/
inductive Json where
  | null
  | bool (b : Bool)
  | int (n : Int)
  | str (s : String)
  | arr (elems : List Json)
  | obj (fields : List (String × Json))

/-- First-match association lookup, i.e. Python `dict.get(key)` returning
`None` (here `none`) when the key is absent. -/
def jsonLookup : List (String × Json) → String → Option Json
  | [], _ => none
  | (k, v) :: rest, key => if k = key then some v else jsonLookup rest key

/-- Python truthiness of a decoded JSON value (`if not user_info` etc.). -/
def pyTruthy : Json → Bool
  | Json.null => false
  | Json.bool b => b
  | Json.int n => n != 0
  | Json.str s => !(s == "")
  | Json.arr [] => false
  | Json.arr (_ :: _) => true
  | Json.obj [] => false
  | Json.obj (_ :: _) => true

/-- Python `user_info.get('auth') == 1` (negation of the source's `!= 1`).
Python `True == 1` holds, so a JSON `true` also passes. -/
def authEq1 : Option Json → Bool
  | some (Json.int n) => n == 1
  | some (Json.bool b) => b
  | _ => false

/-- Python `user_info.get('status') == 'Expired'`: only a string field can
compare equal to the string literal. -/
def statusEqExpired : Option Json → Bool
  | some (Json.str s) => s == "Expired"
  | _ => false

/-- Outcome of one HTTP request made by the probe executor.  `failure` covers
transport errors and timeout expiry (an exception from `session.get`); for a
delivered response, `body` is the result of `response.json()` — `Except.error`
when the body is malformed (the call raises). -/
inductive HttpOutcome where
  | failure
  | response (status : Nat) (body : Except Unit Json)

/-- One credential pair together with the network outcomes its two requests
would observe (the authentication call and the categories call). -/
structure ProbeInput where
  username : String
  password : String
  authResp : HttpOutcome
  catResp : HttpOutcome

/-- The dict returned by `check_credential` on success (source lines 181-185). -/
structure CheckResult where
  server : String
  user_info : Json
  categories : List String

/-- The category list comprehension (source line 177):
`[cat.get('category_name', '').upper() for cat in cat_data if cat.get('category_name')]`.
A non-dict element raises `AttributeError` on `.get`, a truthy non-string
`category_name` raises on `.upper()`; either way the whole comprehension
raises, which the source swallows (yielding `[]`), hence the `Except`. -/
def mapCats : List Json → Except Unit (List String)
  | [] => Except.ok []
  | Json.obj fields :: rest =>
    (match jsonLookup fields ("category_name") with
     | none => mapCats rest
     | some v =>
       if pyTruthy v then
         match v with
         | Json.str s => (mapCats rest).map (fun l => s.toUpper :: l)
         | _ => Except.error ()
       else mapCats rest)
  | _ :: _ => Except.error ()

/-- The best-effort categories fetch (source lines 169-179): any transport
error, non-200 status, malformed body, non-list body or failing comprehension
leaves `categories = []`. -/
def extractCategories : HttpOutcome → List String
  | HttpOutcome.failure => []
  | HttpOutcome.response status body =>
    if status ≠ 200 then []
    else
      match body with
      | Except.error _ => []
      | Except.ok (Json.arr elems) =>
        (match mapCats elems with
         | Except.ok l => l
         | Except.error _ => [])
      | Except.ok _ => []

/-- Pure verdict of `check_credential` (source lines 154-188), before the
`finally` bookkeeping: `none` models every `return None` and every caught
exception; `some` models the returned result dict.  `data.get` on a non-dict
body and `user_info.get` on a truthy non-dict `user_info` raise
`AttributeError`, caught by the outer handler. -/
def checkVerdict (server : String) (inp : ProbeInput) : Option CheckResult :=
  match inp.authResp with
  | HttpOutcome.failure => none
  | HttpOutcome.response status body =>
    if status ≠ 200 then none
    else
      match body with
      | Except.error _ => none
      | Except.ok (Json.obj fields) =>
        (match jsonLookup fields ("user_info") with
         | none => none
         | some ui =>
           if pyTruthy ui then
             match ui with
             | Json.obj uiFields =>
               if authEq1 (jsonLookup uiFields ("auth"))
                   && !(statusEqExpired (jsonLookup uiFields ("status"))) then
                 some { server := server, user_info := ui,
                        categories := extractCategories inp.catResp }
               else none
             | _ => none
           else none)
      | Except.ok _ => none

/-- The claim's success condition for the authentication step: HTTP 200, a
parsable body that is an object, a nested `user_info` object whose `auth`
field equals 1 and whose `status` field is not `"Expired"`. -/
def authSuccess (a : HttpOutcome) : Prop :=
  ∃ fields uiFields,
    a = HttpOutcome.response 200 (Except.ok (Json.obj fields)) ∧
    jsonLookup fields ("user_info") = some (Json.obj uiFields) ∧
    authEq1 (jsonLookup uiFields ("auth")) = true ∧
    statusEqExpired (jsonLookup uiFields ("status")) = false

theorem authEq1_ne_nil {uiFields : List (String × Json)}
    (h : authEq1 (jsonLookup uiFields ("auth")) = true) : uiFields ≠ [] := by
  intro hnil
  subst hnil
  simp [jsonLookup, authEq1] at h

/-- Claim C1: the probe executor returns a non-`none` verdict iff the
authentication request returns HTTP 200 with a parsable body containing a
nested `user_info` object whose `auth` field equals 1 and whose `status`
field is not `"Expired"`; every other outcome yields `none`.  (The embedding
is a total function, so no exception can escape the executor.) -/
theorem c1_probe_verdict_iff (server u p : String) (auth cat : HttpOutcome) :
    (checkVerdict server ⟨u, p, auth, cat⟩).isSome = true ↔ authSuccess auth := by
  unfold checkVerdict authSuccess
  cases auth with
  | failure => simp
  | response status body =>
    by_cases hs : status = 200
    · subst hs
      simp only [ne_eq, not_true_eq_false, if_false, ite_false, if_neg, not_false_eq_true,
        reduceIte]
      cases body with
      | error e => simp
      | ok j =>
        cases j with
        | null => simp
        | bool b => simp
        | int n => simp
        | str s => simp
        | arr elems => simp
        | obj fields =>
          cases hui : jsonLookup fields ("user_info") with
          | none => simp [hui]
          | some ui =>
            cases ui with
            | null => simp [hui, pyTruthy]
            | bool b =>
              cases b <;> simp [hui, pyTruthy]
            | int n => simp [hui, pyTruthy]
            | str s => simp [hui, pyTruthy]
            | arr elems => cases elems <;> simp [hui, pyTruthy]
            | obj uiFields =>
              cases uiFields with
              | nil => simp [hui, pyTruthy, jsonLookup, authEq1]
              | cons kv rest =>
                by_cases hauth : authEq1 (jsonLookup (kv :: rest) ("auth")) = true
                · by_cases hexp :
                      statusEqExpired (jsonLookup (kv :: rest) ("status")) = true
                  · simp [hui, pyTruthy, hauth, hexp]
                  · simp only [Bool.not_eq_true] at hexp
                    simp [hui, pyTruthy, hauth, hexp]
                · simp only [Bool.not_eq_true] at hauth
                  simp [hui, pyTruthy, hauth]
    · simp [hs]

/-- Python whitespace characters stripped by `str.strip()`. -/
def isPySpace (c : Char) : Bool :=
  c == ' ' || c == '\t' || c == '\n' || c == '\r' || c == '\x0b' || c == '\x0c'

/-- Python `str.strip()`: remove leading and trailing whitespace. -/
def pyStrip (s : String) : String :=
  String.mk (((s.toList.dropWhile isPySpace).reverse.dropWhile isPySpace).reverse)

/-- Python `':' in line`. -/
def lineHasColon (s : String) : Bool := s.toList.contains ':'

/-- Worker for `pySplitNl`, accumulating the current line in reverse. -/
def splitLinesAux : List Char → List Char → List String
  | [], acc => [String.mk acc.reverse]
  | c :: cs, acc =>
    if c = '\n' then String.mk acc.reverse :: splitLinesAux cs []
    else splitLinesAux cs (c :: acc)

/-- Python `s.split('\n')`: split at every newline; the empty string yields
one empty line. -/
def pySplitNl (s : String) : List String := splitLinesAux s.toList []

/-- Helper for `line.split(':', 1)`: the part before the first colon and the
part after it, or `none` when the line has no colon (in which case Python's
split would return a single part). -/
def splitFirstColonAux : List Char → Option (List Char × List Char)
  | [] => none
  | c :: cs =>
    if c = ':' then some ([], cs)
    else (splitFirstColonAux cs).map (fun p => (c :: p.1, p.2))

/-- Python `line.split(':', 1)` restricted to lines containing a colon. -/
def splitFirstColon (s : String) : Option (String × String) :=
  (splitFirstColonAux s.toList).map (fun p => (String.mk p.1, String.mk p.2))

/-- Line loop of `load_credentials` (source lines 139-144): keep every line
containing a colon, split the stripped line at the first colon, and take both
parts as-is (no emptiness check on either part). -/
def parseLines : List String → List (String × String)
  | [] => []
  | line :: rest =>
    if lineHasColon line then
      match splitFirstColon (pyStrip line) with
      | some p => p :: parseLines rest
      | none => parseLines rest
    else parseLines rest

/-- Source `load_credentials` applied to successfully read file content
(source lines 136-146). -/
def load_credentials (content : String) : List (String × String) :=
  parseLines (pySplitNl (pyStrip content))

/-- Source `load_credentials` including its blanket exception handler (source lines
135-149): any I/O or decoding error while reading the file is absorbed and
yields the empty list. -/
def load_credentials_io (readResult : Except String String) : List (String × String) :=
  match readResult with
  | Except.ok content => load_credentials content
  | Except.error _ => []

/-- Line loop of `download_combo_from_url` (source lines 115-124): strip the
line, require a colon (and hence a non-empty line), split at the first colon,
strip both parts, and keep the pair only when both are non-empty. -/
def parseComboLines : List String → List (String × String)
  | [] => []
  | rawLine :: rest =>
    let line := pyStrip rawLine
    if lineHasColon line && !(line == "") then
      match splitFirstColon line with
      | some p =>
        let username := pyStrip p.1
        let password := pyStrip p.2
        if !(username == "") && !(password == "") then
          (username, password) :: parseComboLines rest
        else parseComboLines rest
      | none => parseComboLines rest
    else parseComboLines rest

/-- Parsing phase of `download_combo_from_url` applied to downloaded text. -/
def parse_combo (content : String) : List (String × String) :=
  parseComboLines (pySplitNl (pyStrip content))

/-- Outcome of the combo download HTTP request (`response.text()`). -/
inductive TextOutcome where
  | failure
  | response (status : Nat) (body : String)

/-- Source `download_combo_from_url` (lines 103-131): transport errors and
non-200 statuses yield the empty list, otherwise the body is parsed. -/
def download_combo_from_url (resp : TextOutcome) : List (String × String) :=
  match resp with
  | TextOutcome.failure => []
  | TextOutcome.response status body =>
    if status ≠ 200 then [] else parse_combo body

/-- The engine's mutable counters (`self.tested`, `self.total_tests`,
`self.total_hits`). -/
structure RunState where
  tested : Nat
  total_tests : Nat
  total_hits : Nat
deriving DecidableEq

/-- Payload of the progress line printed by `check_credential`'s `finally`
block (source lines 191-193). -/
structure ProgressObs where
  progress : ℚ
  tested : Nat
  total : Nat
  hits : Nat

/-- The progress observation built at a given counter state:
`(self.tested / self.total_tests) * 100` plus the raw counters. -/
def progressObsOf (st : RunState) : ProgressObs :=
  { progress := ((st.tested : ℚ) / (st.total_tests : ℚ)) * 100,
    tested := st.tested, total := st.total_tests, hits := st.total_hits }

/-- Result of one `check_credential` call including its `finally` block. -/
structure ProbeOut where
  verdict : Option CheckResult
  st : RunState
  obs : Option ProgressObs

/-- Source `check_credential` with its `finally` bookkeeping (source lines 151-193):
the verdict is computed (all exceptions already folded into `none`), then
`tested` is incremented unconditionally — on success, rejection, timeout and
exception paths alike — and a progress observation is emitted iff the new
`tested` is a multiple of 50.  The emission changes no counter. -/
def check_credential_run (server : String) (inp : ProbeInput) (st : RunState) : ProbeOut :=
  let st2 : RunState := ⟨st.tested + 1, st.total_tests, st.total_hits⟩
  { verdict := checkVerdict server inp,
    st := st2,
    obs := if st2.tested % 50 = 0 then some (progressObsOf st2) else none }

/-- Observable events of a run, used to state scheduling-order properties. -/
inductive Event where
  | probed (username password : String) (authenticated : Bool)
  | hitSaved (r : CheckResult)
  | writeFailed
  | noCredentialsReported

/-- Output of probing one batch: final counters, the verdicts in batch order,
the counter states after each probe (the run's observation points during the
batch), and the probe events. -/
structure BatchOut where
  st : RunState
  results : List (Option CheckResult)
  states : List RunState
  events : List Event

/-- The `asyncio.gather` over one batch (source lines 283-284): every
credential of the batch is probed exactly once; counter updates from the
concurrent probes are modelled as the sequential interleaving in batch
order. -/
def probeBatch (server : String) (st : RunState) : List ProbeInput → BatchOut
  | [] => ⟨st, [], [], []⟩
  | inp :: rest =>
    let p := check_credential_run server inp st
    let out := probeBatch server p.st rest
    ⟨out.st, p.verdict :: out.results, p.st :: out.states,
      Event.probed inp.username inp.password p.verdict.isSome :: out.events⟩

/-- Source `save_hit` (lines 235-248): the append to the hit file either
succeeds — and only then is `total_hits` incremented — or raises, which the
source does not catch, modelled as `Except.error` carrying the unchanged
state.  `wOk k` tells whether the `k`-th append of the run (indexed by the
current hit count) succeeds. -/
def save_hit (wOk : Nat → Bool) (st : RunState) (_r : CheckResult) : Except RunState RunState :=
  if wOk st.total_hits then
    Except.ok ⟨st.tested, st.total_tests, st.total_hits + 1⟩
  else Except.error st

/-- Result of the hit-saving loop or of the whole run: final counters (inside
`Except.error` when an uncaught hit-write exception aborted the run), the
counter states after each update, and the events. -/
structure LoopOut where
  result : Except RunState RunState
  states : List RunState
  events : List Event

/-- The per-batch result loop (source lines 286-288): every truthy dict result
is forwarded to `save_hit`; a failing append propagates its exception,
stopping the loop. -/
def saveResults (wOk : Nat → Bool) (st : RunState) : List (Option CheckResult) → LoopOut
  | [] => ⟨Except.ok st, [], []⟩
  | none :: rest => saveResults wOk st rest
  | some r :: rest =>
    match save_hit wOk st r with
    | Except.ok st2 =>
      let out := saveResults wOk st2 rest
      ⟨out.result, st2 :: out.states, Event.hitSaved r :: out.events⟩
    | Except.error st2 => ⟨Except.error st2, [], [Event.writeFailed]⟩

/-- Structural worker for `chunksOf`; `fuel` only bounds the recursion depth
and is irrelevant as long as it is at least the list's length (for a positive
chunk size the list shrinks by at least one element per step). -/
def chunksOfAux (n : Nat) : Nat → List α → List (List α)
  | 0, _ => []
  | _ + 1, [] => []
  | fuel + 1, x :: xs => (x :: xs).take n :: chunksOfAux n fuel ((x :: xs).drop n)

/-- Contiguous chunking, `credentials[i:i+n]` for `i in range(0, len, n)`
(source lines 280-282).  The source always uses `n = 100`; `n = 0` (which
would make Python's `range` raise) is mapped to the empty list by the fuel
bound. -/
def chunksOf (n : Nat) (l : List α) : List (List α) :=
  if n = 0 then [] else chunksOfAux n l.length l

/-- The batch loop of `run` (source lines 281-288): probe a batch, then save
its hits; an uncaught exception from `save_hit` aborts the loop, skipping all
remaining results and batches. -/
def runLoop (server : String) (wOk : Nat → Bool) (st : RunState) :
    List (List ProbeInput) → LoopOut
  | [] => ⟨Except.ok st, [], []⟩
  | batch :: rest =>
    let p := probeBatch server st batch
    let s := saveResults wOk p.st p.results
    match s.result with
    | Except.ok st2 =>
      let r := runLoop server wOk st2 rest
      ⟨r.result, (p.states ++ s.states) ++ r.states, (p.events ++ s.events) ++ r.events⟩
    | Except.error st2 => ⟨Except.error st2, p.states ++ s.states, p.events ++ s.events⟩

/-- Source `run` after loading credentials (lines 265-288): an empty
credential list is reported (`"❌ Nenhuma credencial válida encontrada"`) and
the function returns before any probing; otherwise `total_tests` is set and
the batches of 100 are processed. -/
def run (server : String) (wOk : Nat → Bool) (creds : List ProbeInput) : LoopOut :=
  if creds.isEmpty then ⟨Except.ok ⟨0, 0, 0⟩, [], [Event.noCredentialsReported]⟩
  else runLoop server wOk ⟨0, creds.length, 0⟩ (chunksOf 100 creds)

/-- Attach to a loaded credential pair the network outcomes its probe would
observe, producing the probe executor's input. -/
def credInput (net : String → String → HttpOutcome × HttpOutcome)
    (c : String × String) : ProbeInput :=
  ⟨c.1, c.2, (net c.1 c.2).1, (net c.1 c.2).2⟩

theorem probeBatch_st (server : String) (batch : List ProbeInput) (st : RunState) :
    (probeBatch server st batch).st =
      ⟨st.tested + batch.length, st.total_tests, st.total_hits⟩ := by
  induction batch generalizing st with
  | nil => simp [probeBatch]
  | cons inp rest ih =>
    simp only [probeBatch, check_credential_run, ih, List.length_cons]
    congr 1
    omega

theorem probeBatch_results (server : String) (batch : List ProbeInput) (st : RunState) :
    (probeBatch server st batch).results = batch.map (checkVerdict server) := by
  induction batch generalizing st with
  | nil => simp [probeBatch]
  | cons inp rest ih => simp [probeBatch, check_credential_run, ih]

theorem probeBatch_events (server : String) (batch : List ProbeInput) (st : RunState) :
    (probeBatch server st batch).events =
      batch.map (fun i => Event.probed i.username i.password (checkVerdict server i).isSome) := by
  induction batch generalizing st with
  | nil => simp [probeBatch]
  | cons inp rest ih => simp [probeBatch, check_credential_run, ih]

theorem probeBatch_states_mem (server : String) (batch : List ProbeInput) (st : RunState) :
    ∀ s ∈ (probeBatch server st batch).states,
      s.total_tests = st.total_tests ∧ s.total_hits = st.total_hits ∧
      st.tested < s.tested ∧ s.tested ≤ st.tested + batch.length := by
  induction batch generalizing st with
  | nil => simp [probeBatch]
  | cons inp rest ih =>
    intro s hs
    simp only [probeBatch, check_credential_run, List.mem_cons] at hs
    rcases hs with hs | hs
    · subst hs
      refine ⟨rfl, rfl, Nat.lt_succ_self st.tested, ?_⟩
      show st.tested + 1 ≤ st.tested + (inp :: rest).length
      have h5 : (inp :: rest).length = rest.length + 1 := rfl
      omega
    · obtain ⟨h1, h2, h3, h4⟩ := ih ⟨st.tested + 1, st.total_tests, st.total_hits⟩ s hs
      have h1b : s.total_tests = st.total_tests := h1
      have h2b : s.total_hits = st.total_hits := h2
      have h3b : st.tested + 1 < s.tested := h3
      have h4b : s.tested ≤ st.tested + 1 + rest.length := h4
      have h5 : (inp :: rest).length = rest.length + 1 := rfl
      exact ⟨h1b, h2b, by omega, by omega⟩

/-- Number of hits among a batch's verdicts. -/
def numSome (vs : List (Option CheckResult)) : Nat := (vs.filterMap id).length

theorem numSome_nil : numSome [] = 0 := rfl

theorem numSome_cons_none (rest : List (Option CheckResult)) :
    numSome (none :: rest) = numSome rest := rfl

theorem numSome_cons_some (r : CheckResult) (rest : List (Option CheckResult)) :
    numSome (some r :: rest) = numSome rest + 1 := by
  simp [numSome, List.filterMap_cons]

theorem numSome_le_length (vs : List (Option CheckResult)) : numSome vs ≤ vs.length := by
  induction vs with
  | nil => simp [numSome]
  | cons v rest ih =>
    cases v with
    | none => simp only [numSome_cons_none, List.length_cons]; omega
    | some r => simp only [numSome_cons_some, List.length_cons]; omega

theorem saveResults_ok (wOk : Nat → Bool) (vs : List (Option CheckResult))
    (st stf : RunState) (h : (saveResults wOk st vs).result = Except.ok stf) :
    stf.tested = st.tested ∧ stf.total_tests = st.total_tests ∧
    st.total_hits ≤ stf.total_hits ∧ stf.total_hits ≤ st.total_hits + numSome vs := by
  induction vs generalizing st with
  | nil =>
    simp only [saveResults, Except.ok.injEq] at h
    subst h
    simp [numSome]
  | cons v rest ih =>
    cases v with
    | none =>
      simp only [saveResults] at h
      have := ih st h
      simp only [numSome_cons_none]
      exact this
    | some r =>
      simp only [saveResults, save_hit] at h
      by_cases hw : wOk st.total_hits = true
      · simp only [hw, if_true, reduceIte] at h
        obtain ⟨h1, h2, h3, h4⟩ := ih ⟨st.tested, st.total_tests, st.total_hits + 1⟩ h
        have h1b : stf.tested = st.tested := h1
        have h2b : stf.total_tests = st.total_tests := h2
        have h3b : st.total_hits + 1 ≤ stf.total_hits := h3
        have h4b : stf.total_hits ≤ st.total_hits + 1 + numSome rest := h4
        rw [numSome_cons_some]
        exact ⟨h1b, h2b, by omega, by omega⟩
      · simp only [Bool.not_eq_true] at hw
        simp [hw] at h

theorem saveResults_error (wOk : Nat → Bool) (vs : List (Option CheckResult))
    (st stf : RunState) (h : (saveResults wOk st vs).result = Except.error stf) :
    stf.tested = st.tested ∧ stf.total_tests = st.total_tests ∧
    st.total_hits ≤ stf.total_hits ∧ stf.total_hits ≤ st.total_hits + numSome vs ∧
    wOk stf.total_hits = false := by
  induction vs generalizing st with
  | nil => simp [saveResults] at h
  | cons v rest ih =>
    cases v with
    | none =>
      simp only [saveResults] at h
      have := ih st h
      simp only [numSome_cons_none]
      exact this
    | some r =>
      simp only [saveResults, save_hit] at h
      by_cases hw : wOk st.total_hits = true
      · simp only [hw, if_true, reduceIte] at h
        obtain ⟨h1, h2, h3, h4, h6⟩ := ih ⟨st.tested, st.total_tests, st.total_hits + 1⟩ h
        have h1b : stf.tested = st.tested := h1
        have h2b : stf.total_tests = st.total_tests := h2
        have h3b : st.total_hits + 1 ≤ stf.total_hits := h3
        have h4b : stf.total_hits ≤ st.total_hits + 1 + numSome rest := h4
        rw [numSome_cons_some]
        exact ⟨h1b, h2b, by omega, by omega, h6⟩
      · simp only [Bool.not_eq_true] at hw
        simp only [hw, Bool.false_eq_true, if_false, reduceIte, Except.error.injEq] at h
        subst h
        rw [numSome_cons_some]
        exact ⟨rfl, rfl, le_refl _, by omega, hw⟩

theorem saveResults_states_mem (wOk : Nat → Bool) (vs : List (Option CheckResult))
    (st : RunState) :
    ∀ s ∈ (saveResults wOk st vs).states,
      s.tested = st.tested ∧ s.total_tests = st.total_tests ∧
      st.total_hits < s.total_hits ∧ s.total_hits ≤ st.total_hits + numSome vs := by
  induction vs generalizing st with
  | nil => simp [saveResults]
  | cons v rest ih =>
    cases v with
    | none =>
      intro s hs
      simp only [saveResults] at hs
      have := ih st s hs
      simp only [numSome_cons_none]
      exact this
    | some r =>
      intro s hs
      simp only [saveResults, save_hit] at hs
      by_cases hw : wOk st.total_hits = true
      · simp only [hw, if_true, reduceIte, List.mem_cons] at hs
        rcases hs with hs | hs
        · subst hs
          refine ⟨rfl, rfl, Nat.lt_succ_self st.total_hits, ?_⟩
          show st.total_hits + 1 ≤ st.total_hits + numSome (some r :: rest)
          rw [numSome_cons_some]
          omega
        · obtain ⟨h1, h2, h3, h4⟩ := ih ⟨st.tested, st.total_tests, st.total_hits + 1⟩ s hs
          have h1b : s.tested = st.tested := h1
          have h2b : s.total_tests = st.total_tests := h2
          have h3b : st.total_hits + 1 < s.total_hits := h3
          have h4b : s.total_hits ≤ st.total_hits + 1 + numSome rest := h4
          rw [numSome_cons_some]
          exact ⟨h1b, h2b, by omega, by omega⟩
      · simp only [Bool.not_eq_true] at hw
        simp [hw] at hs

theorem saveResults_allok_result (wOk : Nat → Bool) (vs : List (Option CheckResult))
    (st : RunState) (hw : ∀ k, wOk k = true) :
    (saveResults wOk st vs).result =
      Except.ok ⟨st.tested, st.total_tests, st.total_hits + numSome vs⟩ := by
  induction vs generalizing st with
  | nil => simp [saveResults, numSome]
  | cons v rest ih =>
    cases v with
    | none => simp only [saveResults, numSome_cons_none]; exact ih st
    | some r =>
      simp only [saveResults, save_hit, hw, if_true, reduceIte, numSome_cons_some]
      have := ih ⟨st.tested, st.total_tests, st.total_hits + 1⟩
      simp only at this
      rw [this]
      congr 2
      omega

theorem saveResults_allok_events (wOk : Nat → Bool) (vs : List (Option CheckResult))
    (st : RunState) (hw : ∀ k, wOk k = true) :
    (saveResults wOk st vs).events = (vs.filterMap id).map Event.hitSaved := by
  induction vs generalizing st with
  | nil => simp [saveResults]
  | cons v rest ih =>
    cases v with
    | none =>
      simp only [saveResults]
      rw [ih st]
      simp [List.filterMap]
    | some r =>
      simp only [saveResults, save_hit, hw, if_true, reduceIte]
      rw [ih ⟨st.tested, st.total_tests, st.total_hits + 1⟩]
      simp [List.filterMap]

theorem chunksOfAux_fuel (n : Nat) (hn : n ≠ 0) :
    ∀ (fuel : Nat) (l : List α), l.length ≤ fuel →
      chunksOfAux n fuel l = chunksOfAux n l.length l := by
  intro fuel
  induction fuel using Nat.strong_induction_on with
  | _ fuel ih =>
    intro l hl
    cases fuel with
    | zero =>
      cases l with
      | nil => rfl
      | cons x xs => simp at hl
    | succ f =>
      cases l with
      | nil => rfl
      | cons x xs =>
        simp only [List.length_cons, chunksOfAux]
        congr 1
        have hlen : (List.drop n (x :: xs)).length = xs.length + 1 - n := by
          simp [List.length_drop]
        have hd1 : (List.drop n (x :: xs)).length ≤ f := by
          simp only [List.length_cons] at hl
          omega
        have hd2 : (List.drop n (x :: xs)).length ≤ xs.length := by omega
        rw [ih f (Nat.lt_succ_self f) _ hd1,
          ih xs.length (by simp only [List.length_cons] at hl; omega) _ hd2]

theorem chunksOf_nil (n : Nat) : chunksOf n ([] : List α) = [] := by
  unfold chunksOf
  cases n <;> rfl

theorem chunksOf_cons (n : Nat) (hn : n ≠ 0) (x : α) (xs : List α) :
    chunksOf n (x :: xs) = (x :: xs).take n :: chunksOf n ((x :: xs).drop n) := by
  unfold chunksOf
  simp only [hn, if_false, reduceIte, List.length_cons, chunksOfAux]
  congr 1
  have hd2 : (List.drop n (x :: xs)).length ≤ xs.length := by
    simp only [List.length_drop, List.length_cons]
    omega
  exact chunksOfAux_fuel n hn xs.length _ hd2

theorem chunksOf_ne_nil (n : Nat) (hn : n ≠ 0) (l : List α) (hl : l ≠ []) :
    chunksOf n l ≠ [] := by
  obtain ⟨x, xs, rfl⟩ := List.exists_cons_of_ne_nil hl
  rw [chunksOf_cons n hn]
  simp

theorem chunksOf_flatten (n : Nat) (hn : n ≠ 0) (l : List α) :
    (chunksOf n l).flatten = l := by
  generalize hk : l.length = k
  induction k using Nat.strong_induction_on generalizing l with
  | _ k ih =>
    cases l with
    | nil => simp [chunksOf_nil]
    | cons x xs =>
      rw [chunksOf_cons n hn, List.flatten_cons,
        ih ((x :: xs).drop n).length ?_ _ rfl, List.take_append_drop]
      subst hk
      simp only [List.length_drop, List.length_cons]
      omega

theorem chunksOf_mem (n : Nat) (hn : n ≠ 0) (l : List α) :
    ∀ c ∈ chunksOf n l, c ≠ [] ∧ c.length ≤ n := by
  generalize hk : l.length = k
  induction k using Nat.strong_induction_on generalizing l with
  | _ k ih =>
    cases l with
    | nil => simp [chunksOf_nil]
    | cons x xs =>
      intro c hc
      rw [chunksOf_cons n hn] at hc
      rcases List.mem_cons.mp hc with hc | hc
      · subst hc
        constructor
        · have : (List.take n (x :: xs)).length = min n (x :: xs).length := by
            simp [List.length_take]
          refine List.length_pos.mp ?_
          simp only [List.length_take]
          have : 0 < (x :: xs).length := by simp
          omega
        · simp only [List.length_take]
          omega
      · exact ih ((x :: xs).drop n).length
          (by subst hk; simp only [List.length_drop, List.length_cons]; omega) _ rfl c hc

theorem chunksOf_dropLast (n : Nat) (hn : n ≠ 0) (l : List α) :
    ∀ c ∈ (chunksOf n l).dropLast, c.length = n := by
  generalize hk : l.length = k
  induction k using Nat.strong_induction_on generalizing l with
  | _ k ih =>
    cases l with
    | nil => simp [chunksOf_nil]
    | cons x xs =>
      intro c hc
      rw [chunksOf_cons n hn] at hc
      by_cases hrest : (x :: xs).drop n = []
      · rw [hrest, chunksOf_nil] at hc
        simp at hc
      · have hne := chunksOf_ne_nil n hn _ hrest
        obtain ⟨b, bs, hb⟩ := List.exists_cons_of_ne_nil hne
        rw [hb, List.dropLast_cons₂] at hc
        rcases List.mem_cons.mp hc with hc | hc
        · subst hc
          have hlen : n < (x :: xs).length := by
            by_contra hle
            push_neg at hle
            have : (x :: xs).drop n = [] := List.drop_eq_nil_of_le hle
            exact hrest this
          simp only [List.length_take]
          omega
        · rw [← hb] at hc
          exact ih ((x :: xs).drop n).length
            (by subst hk; simp only [List.length_drop, List.length_cons]; omega) _ rfl c hc

theorem runLoop_error_wOk (server : String) (wOk : Nat → Bool)
    (bs : List (List ProbeInput)) :
    ∀ (st stf : RunState), (runLoop server wOk st bs).result = Except.error stf →
      wOk stf.total_hits = false := by
  induction bs with
  | nil =>
    intro st stf h
    simp [runLoop] at h
  | cons batch rest ih =>
    intro st stf h
    simp only [runLoop] at h
    cases hs : (saveResults wOk (probeBatch server st batch).st
        (probeBatch server st batch).results).result with
    | ok st2 =>
      rw [hs] at h
      simp only at h
      exact ih st2 stf h
    | error st2 =>
      rw [hs] at h
      simp only [Except.error.injEq] at h
      subst h
      exact (saveResults_error wOk _ _ _ hs).2.2.2.2

/-- Is an event a probe completion? -/
def isProbedEvent : Event → Bool
  | Event.probed _ _ _ => true
  | _ => false

theorem saveResults_events_no_probe (wOk : Nat → Bool) (vs : List (Option CheckResult))
    (st : RunState) :
    (saveResults wOk st vs).events.countP isProbedEvent = 0 := by
  induction vs generalizing st with
  | nil => simp [saveResults]
  | cons v rest ih =>
    cases v with
    | none => simp only [saveResults]; exact ih st
    | some r =>
      simp only [saveResults, save_hit]
      by_cases hw : wOk st.total_hits = true
      · simp only [hw, if_true, reduceIte]
        rw [List.countP_cons]
        simp only [isProbedEvent]
        exact ih ⟨st.tested, st.total_tests, st.total_hits + 1⟩
      · simp only [Bool.not_eq_true] at hw
        simp [hw, List.countP_cons, isProbedEvent]

theorem probeBatch_events_count (server : String) (batch : List ProbeInput) (st : RunState) :
    (probeBatch server st batch).events.countP isProbedEvent = batch.length := by
  rw [probeBatch_events, List.countP_map]
  have : (isProbedEvent ∘ fun i : ProbeInput =>
      Event.probed i.username i.password (checkVerdict server i).isSome) = fun _ => true := by
    funext i
    simp [Function.comp, isProbedEvent]
  rw [this, List.countP_true]

theorem runLoop_probed_count (server : String) (wOk : Nat → Bool)
    (bs : List (List ProbeInput)) :
    ∀ (st stf : RunState), (runLoop server wOk st bs).result = Except.ok stf →
      (runLoop server wOk st bs).events.countP isProbedEvent =
        (bs.map List.length).sum := by
  induction bs with
  | nil => intro st stf _; simp [runLoop]
  | cons batch rest ih =>
    intro st stf h
    simp only [runLoop] at h ⊢
    cases hs : (saveResults wOk (probeBatch server st batch).st
        (probeBatch server st batch).results).result with
    | ok st2 =>
      rw [hs] at h
      simp only at h
      simp only [List.countP_append, List.map_cons, List.sum_cons,
        probeBatch_events_count, saveResults_events_no_probe, ih st2 stf h]
      omega
    | error st2 =>
      rw [hs] at h
      simp at h

theorem runLoop_spec (server : String) (wOk : Nat → Bool)
    (bs : List (List ProbeInput)) :
    ∀ (st : RunState), st.total_hits ≤ st.tested →
      st.tested + (bs.map List.length).sum = st.total_tests →
      (∀ s ∈ (runLoop server wOk st bs).states,
          s.total_tests = st.total_tests ∧ s.tested ≤ st.total_tests ∧
          s.total_hits ≤ s.tested) ∧
      (∀ stf, (runLoop server wOk st bs).result = Except.ok stf →
          stf.tested = st.total_tests ∧ stf.total_tests = st.total_tests ∧
          stf.total_hits ≤ stf.tested) := by
  induction bs with
  | nil =>
    intro st hhits hsum
    simp only [List.map_nil, List.sum_nil, Nat.add_zero] at hsum
    constructor
    · simp [runLoop]
    · intro stf h
      simp only [runLoop, Except.ok.injEq] at h
      subst h
      exact ⟨hsum, rfl, hhits⟩
  | cons batch rest ih =>
    intro st hhits hsum
    simp only [List.map_cons, List.sum_cons] at hsum
    have hpst : (probeBatch server st batch).st =
        ⟨st.tested + batch.length, st.total_tests, st.total_hits⟩ :=
      probeBatch_st server batch st
    have hplen : (probeBatch server st batch).results.length = batch.length := by
      rw [probeBatch_results, List.length_map]
    have hnum : numSome (probeBatch server st batch).results ≤ batch.length := by
      have := numSome_le_length (probeBatch server st batch).results
      omega
    have hPmem := probeBatch_states_mem server batch st
    have hSmem := saveResults_states_mem wOk (probeBatch server st batch).results
      (probeBatch server st batch).st
    constructor
    · intro s hsmem
      simp only [runLoop] at hsmem
      cases hs : (saveResults wOk (probeBatch server st batch).st
          (probeBatch server st batch).results).result with
      | ok st2 =>
        rw [hs] at hsmem
        simp only [List.mem_append] at hsmem
        rcases hsmem with (hsmem | hsmem) | hsmem
        · obtain ⟨e1, e2, e3, e4⟩ := hPmem s hsmem
          exact ⟨e1, by omega, by omega⟩
        · obtain ⟨e1, e2, e3, e4⟩ := hSmem s hsmem
          rw [hpst] at e1 e2 e3 e4
          simp only at e1 e2 e3 e4
          exact ⟨e2, by omega, by omega⟩
        · obtain ⟨g1, g2, g3, g4⟩ := saveResults_ok wOk _ _ st2 hs
          rw [hpst] at g1 g2 g3 g4
          simp only at g1 g2 g3 g4
          have hrec := ih st2 (by omega) (by omega)
          have hres := hrec.1 s hsmem
          rw [g2] at hres
          exact hres
      | error st2 =>
        rw [hs] at hsmem
        simp only [List.mem_append] at hsmem
        rcases hsmem with hsmem | hsmem
        · obtain ⟨e1, e2, e3, e4⟩ := hPmem s hsmem
          exact ⟨e1, by omega, by omega⟩
        · obtain ⟨e1, e2, e3, e4⟩ := hSmem s hsmem
          rw [hpst] at e1 e2 e3 e4
          simp only at e1 e2 e3 e4
          exact ⟨e2, by omega, by omega⟩
    · intro stf h
      simp only [runLoop] at h
      cases hs : (saveResults wOk (probeBatch server st batch).st
          (probeBatch server st batch).results).result with
      | ok st2 =>
        rw [hs] at h
        simp only at h
        obtain ⟨g1, g2, g3, g4⟩ := saveResults_ok wOk _ _ st2 hs
        rw [hpst] at g1 g2 g3 g4
        simp only at g1 g2 g3 g4
        have hrec := ih st2 (by omega) (by omega)
        have := hrec.2 stf h
        exact ⟨by omega, by omega, this.2.2⟩
      | error st2 =>
        rw [hs] at h
        simp at h

theorem filterMap_id_map {α β : Type} (f : α → Option β) (l : List α) :
    (l.map f).filterMap id = l.filterMap f := by
  induction l with
  | nil => rfl
  | cons x xs ih => simp [List.filterMap_cons, ih]

theorem runLoop_allok_events (server : String) (wOk : Nat → Bool)
    (bs : List (List ProbeInput)) (hw : ∀ k, wOk k = true) :
    ∀ st : RunState, (runLoop server wOk st bs).events =
      (bs.map (fun b =>
        b.map (fun i => Event.probed i.username i.password (checkVerdict server i).isSome)
          ++ (b.filterMap (checkVerdict server)).map Event.hitSaved)).flatten := by
  induction bs with
  | nil => intro st; simp [runLoop]
  | cons batch rest ih =>
    intro st
    simp only [runLoop]
    have hres := saveResults_allok_result wOk (probeBatch server st batch).results
      (probeBatch server st batch).st hw
    rw [hres]
    simp only [List.map_cons, List.flatten_cons]
    rw [probeBatch_events,
      saveResults_allok_events wOk _ _ hw, probeBatch_results, filterMap_id_map, ih,
      List.append_assoc]

theorem mapCats_mem (elems : List Json) (l : List String)
    (h : mapCats elems = Except.ok l) :
    ∀ c ∈ l, ∃ fields s, Json.obj fields ∈ elems ∧
      jsonLookup fields ("category_name") = some (Json.str s) ∧ c = s.toUpper := by
  induction elems generalizing l with
  | nil =>
    simp only [mapCats, Except.ok.injEq] at h
    subst h
    simp
  | cons e rest ih =>
    cases e with
    | obj fields =>
      simp only [mapCats] at h
      cases hlk : jsonLookup fields ("category_name") with
      | none =>
        rw [hlk] at h
        intro c hc
        obtain ⟨f2, s2, hmem, hl2, hup⟩ := ih l h c hc
        exact ⟨f2, s2, List.mem_cons_of_mem _ hmem, hl2, hup⟩
      | some v =>
        rw [hlk] at h
        by_cases htr : pyTruthy v = true
        · simp only [htr, if_true, reduceIte] at h
          cases v with
          | str s =>
            cases hrest : mapCats rest with
            | error e2 => rw [hrest] at h; simp [Except.map] at h
            | ok l2 =>
              rw [hrest] at h
              simp only [Except.map, Except.ok.injEq] at h
              subst h
              intro c hc
              rcases List.mem_cons.mp hc with hc | hc
              · exact ⟨fields, s, List.mem_cons_self _ _, hlk, hc⟩
              · obtain ⟨f2, s2, hmem, hl2, hup⟩ := ih l2 hrest c hc
                exact ⟨f2, s2, List.mem_cons_of_mem _ hmem, hl2, hup⟩
          | null => simp at h
          | bool b => simp at h
          | int n => simp at h
          | arr es => simp at h
          | obj fs => simp at h
        · simp only [Bool.not_eq_true] at htr
          simp only [htr, Bool.false_eq_true, if_false, reduceIte] at h
          intro c hc
          obtain ⟨f2, s2, hmem, hl2, hup⟩ := ih l h c hc
          exact ⟨f2, s2, List.mem_cons_of_mem _ hmem, hl2, hup⟩
    | null => simp [mapCats] at h
    | bool b => simp [mapCats] at h
    | int n => simp [mapCats] at h
    | str s => simp [mapCats] at h
    | arr es => simp [mapCats] at h

theorem extractCategories_mem (cat : HttpOutcome) :
    ∀ c ∈ extractCategories cat, ∃ elems fields s,
      cat = HttpOutcome.response 200 (Except.ok (Json.arr elems)) ∧
      Json.obj fields ∈ elems ∧
      jsonLookup fields ("category_name") = some (Json.str s) ∧ c = s.toUpper := by
  cases cat with
  | failure => simp [extractCategories]
  | response status body =>
    by_cases hs : status = 200
    · subst hs
      cases body with
      | error e => simp [extractCategories]
      | ok j =>
        cases j with
        | arr elems =>
          cases hm : mapCats elems with
          | error e2 => simp [extractCategories, hm]
          | ok l =>
            intro c hc
            simp only [extractCategories, ne_eq, not_true_eq_false, if_false, reduceIte,
              hm] at hc
            obtain ⟨fields, s, hmem, hlk, hup⟩ := mapCats_mem elems l hm c hc
            exact ⟨elems, fields, s, rfl, hmem, hlk, hup⟩
        | null => simp [extractCategories]
        | bool b => simp [extractCategories]
        | int n => simp [extractCategories]
        | str s => simp [extractCategories]
        | obj fs => simp [extractCategories]
    · simp [extractCategories, hs]

/-- The failure modes of the categories request that claim C4 enumerates:
transport error or timeout, non-200 status, or a malformed body. -/
def catRequestFailed (cat : HttpOutcome) : Prop :=
  cat = HttpOutcome.failure ∨
  (∃ status body, cat = HttpOutcome.response status body ∧ status ≠ 200) ∨
  (∃ status, cat = HttpOutcome.response status (Except.error ()))

theorem extractCategories_failed (cat : HttpOutcome) (h : catRequestFailed cat) :
    extractCategories cat = [] := by
  rcases h with h | ⟨status, body, h, hne⟩ | ⟨status, h⟩
  · subst h; rfl
  · subst h
    simp [extractCategories, hne]
  · subst h
    by_cases hs : status = 200
    · subst hs; rfl
    · simp [extractCategories, hs]

theorem checkVerdict_categories (server u p : String) (auth cat : HttpOutcome)
    (r : CheckResult) (h : checkVerdict server ⟨u, p, auth, cat⟩ = some r) :
    r.categories = extractCategories cat := by
  unfold checkVerdict at h
  cases auth with
  | failure => simp at h
  | response status body =>
    by_cases hs : status = 200
    · subst hs
      simp only [ne_eq, not_true_eq_false, if_false, reduceIte] at h
      cases body with
      | error e => simp at h
      | ok j =>
        cases j with
        | obj fields =>
          cases hui : jsonLookup fields ("user_info") with
          | none => simp only [hui] at h; exact absurd h (by simp)
          | some ui =>
            simp only [hui] at h
            by_cases htr : pyTruthy ui = true
            · simp only [htr, if_true, reduceIte] at h
              cases ui with
              | obj uiFields =>
                by_cases hcond : (authEq1 (jsonLookup uiFields ("auth"))
                    && !(statusEqExpired (jsonLookup uiFields ("status")))) = true
                · simp only [hcond, if_true, reduceIte, Option.some.injEq] at h
                  subst h
                  rfl
                · simp only [Bool.not_eq_true] at hcond
                  simp [hcond] at h
              | null => simp at h
              | bool b => simp at h
              | int n => simp at h
              | str s => simp at h
              | arr es => simp at h
            · simp only [Bool.not_eq_true] at htr
              simp [htr] at h
        | null => simp at h
        | bool b => simp at h
        | int n => simp at h
        | str s => simp at h
        | arr es => simp at h
    · simp [hs] at h

/-- A `user_info` object that authenticates: `auth = 1`, `status = "Active"`. -/
def exUserInfo : Json :=
  Json.obj [(("auth" : String), Json.int 1), (("status" : String), Json.str ("Active"))]

/-- An authentication response accepting the credential. -/
def exAuthOk : HttpOutcome :=
  HttpOutcome.response 200 (Except.ok (Json.obj [(("user_info" : String), exUserInfo)]))

/-- A probe input that authenticates but whose categories request fails. -/
def exGoodInput : ProbeInput := ⟨"u", "p", exAuthOk, HttpOutcome.failure⟩

/-- A probe input whose authentication request fails at the transport level. -/
def exFailInput : ProbeInput := ⟨"u", "p", HttpOutcome.failure, HttpOutcome.failure⟩

/-- A list of 101 identical successfully-authenticating credentials: two batches. -/
def exCreds101 : List ProbeInput := List.replicate 101 exGoodInput

/-- Claim C2: in every run over a non-empty credential sequence, each
credential pair causes exactly one increment of `tested` (the increment sits
in the probe's `finally` block, so it fires on success, rejection, timeout
and exception paths alike), hence on completion `tested = total = length` and
the number of probe-completion events equals the number of credentials; and
at every observation point (every counter state reached during the run)
`tested` never exceeds `total` and `hits` never exceeds `tested`. -/
theorem c2_counter_accounting (server : String) (wOk : Nat → Bool)
    (creds : List ProbeInput) (h : creds ≠ []) :
    (∀ stf, (run server wOk creds).result = Except.ok stf →
        stf.tested = creds.length ∧ stf.total_tests = creds.length ∧
        (run server wOk creds).events.countP isProbedEvent = creds.length) ∧
    (∀ s ∈ (run server wOk creds).states,
        s.total_tests = creds.length ∧ s.tested ≤ s.total_tests ∧
        s.total_hits ≤ s.tested) := by
  have hf : creds.isEmpty = false := by
    cases creds with
    | nil => exact absurd rfl h
    | cons x xs => rfl
  have hsum : ((chunksOf 100 creds).map List.length).sum = creds.length := by
    conv_rhs => rw [← chunksOf_flatten 100 (by decide) creds]
    rw [List.length_flatten]
  have hrun : run server wOk creds =
      runLoop server wOk ⟨0, creds.length, 0⟩ (chunksOf 100 creds) := by
    simp [run, hf]
  have hspec := runLoop_spec server wOk (chunksOf 100 creds) ⟨0, creds.length, 0⟩
    (by simp) (by simp [hsum])
  rw [hrun]
  constructor
  · intro stf hok
    obtain ⟨a1, a2, _⟩ := hspec.2 stf hok
    have a1b : stf.tested = creds.length := a1
    have a2b : stf.total_tests = creds.length := a2
    refine ⟨a1b, a2b, ?_⟩
    rw [runLoop_probed_count server wOk (chunksOf 100 creds) _ stf hok, hsum]
  · intro s hs
    obtain ⟨b1, b2, b3⟩ := hspec.1 s hs
    have b1b : s.total_tests = creds.length := b1
    have b2b : s.tested ≤ creds.length := b2
    exact ⟨b1b, by omega, b3⟩

/-- Witness for C2: a one-credential run, with the invariant instantiated. -/
theorem c2_counter_accounting_witness :
    ([exGoodInput] ≠ []) ∧
    (∀ s ∈ (run ("srv") (fun _ => true) [exGoodInput]).states,
        s.total_tests = [exGoodInput].length ∧ s.tested ≤ s.total_tests ∧
        s.total_hits ≤ s.tested) :=
  ⟨by simp, (c2_counter_accounting ("srv") (fun _ => true) [exGoodInput] (by simp)).2⟩

/-- Claim C4: once authentication has succeeded, any failure of the
categories request (transport error or timeout, non-200 status, malformed
body) leaves the verdict authenticated with an empty category sequence; and
every category name that is returned comes from a `category_name` field of
the categories response, case-normalized to uppercase. -/
theorem c4_categories_best_effort (server u p : String) (auth cat : HttpOutcome)
    (r : CheckResult) (h : checkVerdict server ⟨u, p, auth, cat⟩ = some r) :
    (catRequestFailed cat → r.categories = []) ∧
    (∀ c ∈ r.categories, ∃ elems fields s,
        cat = HttpOutcome.response 200 (Except.ok (Json.arr elems)) ∧
        Json.obj fields ∈ elems ∧
        jsonLookup fields ("category_name") = some (Json.str s) ∧ c = s.toUpper) := by
  have hc := checkVerdict_categories server u p auth cat r h
  constructor
  · intro hfail
    rw [hc]
    exact extractCategories_failed cat hfail
  · intro c hmem
    rw [hc] at hmem
    exact extractCategories_mem cat c hmem

/-- Witness for C4: a successful authentication whose categories request
fails at the transport level still yields a verdict, with no categories. -/
theorem c4_categories_best_effort_witness :
    ({ server := "srv", user_info := exUserInfo, categories := [] } : CheckResult).categories
      = [] :=
  (c4_categories_best_effort ("srv") ("u") ("p") exAuthOk HttpOutcome.failure
    { server := "srv", user_info := exUserInfo, categories := [] } rfl).1 (Or.inl rfl)

/-- Claim C5: the batch scheduler partitions the credential sequence into
contiguous chunks of exactly 100 (the final chunk may be smaller), completes
every probe of a chunk before anything of the next chunk runs, and forwards
every authenticated verdict of the chunk to the hit recorder before the next
chunk starts: the run's event trace is exactly, chunk by chunk, the chunk's
probe-completion events followed by its hit-recorder events.  (Concurrent
launching within a chunk is modelled by the chunk-grained trace: the
`asyncio.gather` join is the only ordering constraint the scheduler
imposes.) -/
theorem c5_batch_scheduler (server : String) (wOk : Nat → Bool)
    (creds : List ProbeInput) (h : creds ≠ []) (hw : ∀ k, wOk k = true) :
    (chunksOf 100 creds).flatten = creds ∧
    (∀ c ∈ chunksOf 100 creds, c ≠ [] ∧ c.length ≤ 100) ∧
    (∀ c ∈ (chunksOf 100 creds).dropLast, c.length = 100) ∧
    (run server wOk creds).events =
      ((chunksOf 100 creds).map (fun b =>
        b.map (fun i => Event.probed i.username i.password (checkVerdict server i).isSome)
          ++ (b.filterMap (checkVerdict server)).map Event.hitSaved)).flatten := by
  have hf : creds.isEmpty = false := by
    cases creds with
    | nil => exact absurd rfl h
    | cons x xs => rfl
  refine ⟨chunksOf_flatten 100 (by decide) creds, chunksOf_mem 100 (by decide) creds,
    chunksOf_dropLast 100 (by decide) creds, ?_⟩
  have hrun : run server wOk creds =
      runLoop server wOk ⟨0, creds.length, 0⟩ (chunksOf 100 creds) := by
    simp [run, hf]
  rw [hrun]
  exact runLoop_allok_events server wOk (chunksOf 100 creds) hw ⟨0, creds.length, 0⟩

/-- Witness for C5 with a single inconclusive credential. -/
theorem c5_batch_scheduler_witness :
    (chunksOf 100 [exFailInput]).flatten = [exFailInput] ∧
    (run ("srv") (fun _ => true) [exFailInput]).events =
      ((chunksOf 100 [exFailInput]).map (fun b =>
        b.map (fun i => Event.probed i.username i.password (checkVerdict ("srv") i).isSome)
          ++ (b.filterMap (checkVerdict ("srv"))).map Event.hitSaved)).flatten :=
  ⟨(c5_batch_scheduler ("srv") (fun _ => true) [exFailInput] (by simp) (fun _ => rfl)).1,
   (c5_batch_scheduler ("srv") (fun _ => true) [exFailInput] (by simp) (fun _ => rfl)).2.2.2⟩

/-- Claim C6: a run over an empty credential sequence reports the
"no credentials" condition and returns before any probing: the final state is
untouched, there are no observation states, and the only event is the report
— in particular zero probe events, i.e. zero network calls against the
target. -/
theorem c6_empty_credentials (server : String) (wOk : Nat → Bool) :
    run server wOk [] =
      ⟨Except.ok ⟨0, 0, 0⟩, [], [Event.noCredentialsReported]⟩ ∧
    (run server wOk []).events.countP isProbedEvent = 0 :=
  ⟨rfl, rfl⟩

/-- Counterexample to claim C3 as stated: with 101 successfully
authenticating credentials and a hit-file append that fails, the claim says
the failure is non-fatal and the run continues with the remaining batch.  In
the code `run` has no handler around `save_hit`, so the exception propagates:
the run aborts after the first batch's 100 probes (the 101st credential is
never probed, `tested` stays 100 ≠ 101) and the hit counter stays 0. -/
theorem c3_write_failure_counterexample :
    (run ("srv") (fun _ => false) exCreds101).result = Except.error ⟨100, 101, 0⟩ ∧
    (run ("srv") (fun _ => false) exCreds101).events.countP isProbedEvent = 100 ∧
    exCreds101.length = 101 :=
  ⟨rfl, rfl, rfl⟩

/-- Claim C3 (amended): when the write of a hit record fails, the in-memory
hit counter is not incremented for that hit — the counter is incremented only
after a successful append, never before — but the failure is not reported as
non-fatal: the uncaught exception aborts the run, skipping the remaining
results and batches.  Concretely: an aborted run always stops at a failing
append whose hit was not counted; a successful append increments the counter
by exactly one; a failing append leaves the state unchanged. -/
theorem c3_write_failure_amended (server : String) (wOk : Nat → Bool)
    (creds : List ProbeInput) :
    (∀ stf, (run server wOk creds).result = Except.error stf →
        wOk stf.total_hits = false) ∧
    (∀ st r stf, save_hit wOk st r = Except.ok stf →
        wOk st.total_hits = true ∧ stf.total_hits = st.total_hits + 1) ∧
    (∀ st r stf, save_hit wOk st r = Except.error stf → stf = st) := by
  refine ⟨?_, ?_, ?_⟩
  · intro stf h
    by_cases hc : creds.isEmpty = true
    · simp [run, hc] at h
    · simp only [Bool.not_eq_true] at hc
      simp only [run, hc, Bool.false_eq_true, if_false, reduceIte] at h
      exact runLoop_error_wOk server wOk (chunksOf 100 creds) _ stf h
  · intro st r stf h
    unfold save_hit at h
    by_cases hw : wOk st.total_hits = true
    · simp only [hw, if_true, reduceIte, Except.ok.injEq] at h
      subst h
      exact ⟨hw, rfl⟩
    · simp only [Bool.not_eq_true] at hw
      simp [hw] at h
  · intro st r stf h
    unfold save_hit at h
    by_cases hw : wOk st.total_hits = true
    · simp [hw] at h
    · simp only [Bool.not_eq_true] at hw
      simp only [hw, Bool.false_eq_true, if_false, reduceIte, Except.error.injEq] at h
      exact h.symm

/-- Witness for C3 (amended) at the two-batch aborting run. -/
theorem c3_write_failure_amended_witness :
    (fun _ : Nat => false) ((⟨100, 101, 0⟩ : RunState).total_hits) = false :=
  (c3_write_failure_amended ("srv") (fun _ => false) exCreds101).1 ⟨100, 101, 0⟩ rfl

/-- Claim C9: after every increment of `tested`, a progress observation is
emitted iff the new `tested` is a multiple of 50; the observation carries the
ratio `tested / total` (scaled to a percentage, exactly as the source
computes it) together with the current `tested`, `total` and `hits`; and the
emission alters no counter — the state after the step is the increment of
`tested` alone, whether or not an observation was emitted. -/
theorem c9_progress_cadence (server : String) (inp : ProbeInput) (st : RunState) :
    ((check_credential_run server inp st).st.tested = st.tested + 1 ∧
     (check_credential_run server inp st).st.total_tests = st.total_tests ∧
     (check_credential_run server inp st).st.total_hits = st.total_hits) ∧
    ((check_credential_run server inp st).obs.isSome = true ↔
        (check_credential_run server inp st).st.tested % 50 = 0) ∧
    (∀ o, (check_credential_run server inp st).obs = some o →
        o.progress = (((check_credential_run server inp st).st.tested : ℚ) /
            ((check_credential_run server inp st).st.total_tests : ℚ)) * 100 ∧
        o.tested = (check_credential_run server inp st).st.tested ∧
        o.total = (check_credential_run server inp st).st.total_tests ∧
        o.hits = (check_credential_run server inp st).st.total_hits) := by
  refine ⟨⟨rfl, rfl, rfl⟩, ?_, ?_⟩
  · by_cases hm : (st.tested + 1) % 50 = 0
    · simp [check_credential_run, hm]
    · simp [check_credential_run, hm]
  · intro o ho
    by_cases hm : (st.tested + 1) % 50 = 0
    · simp only [check_credential_run, hm, if_true, reduceIte, Option.some.injEq] at ho
      subst ho
      exact ⟨rfl, rfl, rfl, rfl⟩
    · simp [check_credential_run, hm] at ho

/-- Witness for C9: the 50th probe emits an observation with the counters. -/
theorem c9_progress_cadence_witness :
    (check_credential_run ("srv") exFailInput ⟨49, 100, 3⟩).obs =
      some (progressObsOf ⟨50, 100, 3⟩) ∧
    (progressObsOf ⟨50, 100, 3⟩).tested = 50 ∧
    (progressObsOf ⟨50, 100, 3⟩).total = 100 ∧
    (progressObsOf ⟨50, 100, 3⟩).hits = 3 :=
  ⟨rfl, ((c9_progress_cadence ("srv") exFailInput ⟨49, 100, 3⟩).2.2
    (progressObsOf ⟨50, 100, 3⟩) rfl).2⟩

/-- Claim C10: loading credentials from a local file never raises at the
public interface: the embedding of `load_credentials` is a total function of
the read outcome, and any I/O or decoding error (nonexistent or unreadable
file included) is absorbed into the empty list, which sends the run into the
fatal "no credentials" report before any probing. -/
theorem c10_loader_absorbs_errors (e : String) (server : String) (wOk : Nat → Bool)
    (net : String → String → HttpOutcome × HttpOutcome) :
    load_credentials_io (Except.error e) = [] ∧
    run server wOk ((load_credentials_io (Except.error e)).map (credInput net)) =
      ⟨Except.ok ⟨0, 0, 0⟩, [], [Event.noCredentialsReported]⟩ :=
  ⟨rfl, rfl⟩

theorem parseComboLines_nonempty (lines : List String) :
    ∀ q ∈ parseComboLines lines, q.1 ≠ "" ∧ q.2 ≠ "" := by
  induction lines with
  | nil => simp [parseComboLines]
  | cons rawLine rest ih =>
    intro q hq
    simp only [parseComboLines] at hq
    by_cases hg : (lineHasColon (pyStrip rawLine) && !(pyStrip rawLine == "")) = true
    · simp only [hg, if_true, reduceIte] at hq
      cases hsp : splitFirstColon (pyStrip rawLine) with
      | none =>
        simp only [hsp] at hq
        exact ih q hq
      | some pr =>
        simp only [hsp] at hq
        by_cases hne : (!(pyStrip pr.1 == "") && !(pyStrip pr.2 == "")) = true
        · simp only [hne, if_true, reduceIte, List.mem_cons] at hq
          rcases hq with hq | hq
          · subst hq
            simp only [Bool.and_eq_true, Bool.not_eq_true', beq_eq_false_iff_ne] at hne
            exact ⟨hne.1, hne.2⟩
          · exact ih q hq
        · simp only [Bool.not_eq_true] at hne
          simp only [hne, Bool.false_eq_true, if_false, reduceIte] at hq
          exact ih q hq
    · simp only [Bool.not_eq_true] at hg
      simp only [hg, Bool.false_eq_true, if_false, reduceIte] at hq
      exact ih q hq

theorem parseLines_colon_provenance (lines : List String) :
    ∀ q ∈ parseLines lines, ∃ line ∈ lines,
      lineHasColon line = true ∧ splitFirstColon (pyStrip line) = some q := by
  induction lines with
  | nil => simp [parseLines]
  | cons line rest ih =>
    intro q hq
    simp only [parseLines] at hq
    by_cases hg : lineHasColon line = true
    · simp only [hg, if_true, reduceIte] at hq
      cases hsp : splitFirstColon (pyStrip line) with
      | none =>
        simp only [hsp] at hq
        obtain ⟨l2, hl2, hcol, hspl⟩ := ih q hq
        exact ⟨l2, List.mem_cons_of_mem _ hl2, hcol, hspl⟩
      | some pr =>
        simp only [hsp, List.mem_cons] at hq
        rcases hq with hq | hq
        · subst hq
          exact ⟨line, List.mem_cons_self _ _, hg, hsp⟩
        · obtain ⟨l2, hl2, hcol, hspl⟩ := ih q hq
          exact ⟨l2, List.mem_cons_of_mem _ hl2, hcol, hspl⟩
    · simp only [Bool.not_eq_true] at hg
      simp only [hg, Bool.false_eq_true, if_false, reduceIte] at hq
      obtain ⟨l2, hl2, hcol, hspl⟩ := ih q hq
      exact ⟨l2, List.mem_cons_of_mem _ hl2, hcol, hspl⟩

/-- Counterexample to claim C8 as stated: the claim says every produced pair
has a non-empty username and password for both credential sources.  The
local-file loader `load_credentials` has no such check: the line `":"`
produces the pair `("", "")`. -/
theorem c8_loader_counterexample :
    load_credentials (":") = [(("" : String), "")] ∧
    ¬ (∀ q ∈ load_credentials (":"), q.1 ≠ "" ∧ q.2 ≠ "") := by
  refine ⟨rfl, ?_⟩
  intro hall
  exact (hall ("", "") (by decide)).1 rfl

/-- Claim C8 (amended): both loaders parse `username:password` lines split at
the first colon and never include a line without a colon (every produced pair
of the local loader comes from a line containing a colon, split at its first
colon).  Only the remote loader (`download_combo_from_url`) strips the two
parts and keeps a pair just when both are non-empty; the local file loader
(`load_credentials`) performs no emptiness check, so pairs with empty
username or password can be produced. -/
theorem c8_loader_amended (content : String) (resp : TextOutcome) :
    (∀ q ∈ download_combo_from_url resp, q.1 ≠ "" ∧ q.2 ≠ "") ∧
    (∀ q ∈ parse_combo content, q.1 ≠ "" ∧ q.2 ≠ "") ∧
    (∀ q ∈ load_credentials content, ∃ line ∈ pySplitNl (pyStrip content),
        lineHasColon line = true ∧ splitFirstColon (pyStrip line) = some q) := by
  refine ⟨?_, ?_, ?_⟩
  · intro q hq
    cases resp with
    | failure => simp [download_combo_from_url] at hq
    | response status body =>
      by_cases hs : status = 200
      · subst hs
        simp only [download_combo_from_url, ne_eq, not_true_eq_false, if_false,
          reduceIte] at hq
        exact parseComboLines_nonempty _ q hq
      · simp [download_combo_from_url, hs] at hq
  · intro q hq
    exact parseComboLines_nonempty _ q hq
  · intro q hq
    exact parseLines_colon_provenance _ q hq

/-- Witness for C8 (amended): a downloaded line keeps its non-empty parts. -/
theorem c8_loader_amended_witness :
    ((("x" : String), ("y" : String)) ∈
        download_combo_from_url (TextOutcome.response 200 ("x:y"))) ∧
    (("x" : String) ≠ "" ∧ ("y" : String) ≠ "") :=
  ⟨by decide,
   (c8_loader_amended ("") (TextOutcome.response 200 ("x:y"))).1 ("x", "y") (by decide)⟩

/-- Witness for C1: a concrete accepting authentication response yields a
verdict. -/
theorem c1_probe_verdict_iff_witness :
    (checkVerdict ("srv") ⟨"u", "p", exAuthOk, HttpOutcome.failure⟩).isSome = true :=
  (c1_probe_verdict_iff ("srv") ("u") ("p") exAuthOk HttpOutcome.failure).mpr
    ⟨[(("user_info" : String), exUserInfo)],
     [(("auth" : String), Json.int 1), (("status" : String), Json.str ("Active"))],
     rfl, rfl, rfl, rfl⟩
